import Mathlib

/-!
Verification development for the matched-filtering signal-detection pipeline
of the losc-tutorial repository.  The repository notebooks call an external
gravitational-wave library; the numerical core they exercise (time series,
frequency series, Welch PSD estimation, PSD interpolation, matched filtering,
peak extraction, alignment) is modelled here over exact arithmetic:
real samples are rationals and complex samples are Gaussian rationals,
so that every definition is computable and floating-point tolerance
becomes exact equality.
-/

/-- Modelled from the spec: complex sample values.  The library stores complex
(post-filtering) samples as pairs of floats; we idealize them as pairs of
rationals with the usual complex ring structure. -/
structure Cx where
  re : ℚ
  im : ℚ
  deriving DecidableEq

namespace Cx

@[ext] theorem ext' {z w : Cx} (hre : z.re = w.re) (him : z.im = w.im) : z = w := by
  cases z; cases w; simp_all

instance : Zero Cx := ⟨⟨0, 0⟩⟩
instance : One Cx := ⟨⟨1, 0⟩⟩
instance : Add Cx := ⟨fun z w => ⟨z.re + w.re, z.im + w.im⟩⟩
instance : Neg Cx := ⟨fun z => ⟨-z.re, -z.im⟩⟩
instance : Mul Cx := ⟨fun z w => ⟨z.re * w.re - z.im * w.im, z.re * w.im + z.im * w.re⟩⟩

@[simp] theorem zero_re : (0 : Cx).re = 0 := rfl
@[simp] theorem zero_im : (0 : Cx).im = 0 := rfl
@[simp] theorem one_re : (1 : Cx).re = 1 := rfl
@[simp] theorem one_im : (1 : Cx).im = 0 := rfl
@[simp] theorem add_re (z w : Cx) : (z + w).re = z.re + w.re := rfl
@[simp] theorem add_im (z w : Cx) : (z + w).im = z.im + w.im := rfl
@[simp] theorem neg_re (z : Cx) : (-z).re = -z.re := rfl
@[simp] theorem neg_im (z : Cx) : (-z).im = -z.im := rfl
@[simp] theorem mul_re (z w : Cx) : (z * w).re = z.re * w.re - z.im * w.im := rfl
@[simp] theorem mul_im (z w : Cx) : (z * w).im = z.re * w.im + z.im * w.re := rfl

instance commRing : CommRing Cx where
  add_assoc a b c := by ext <;> simp <;> ring
  zero_add a := by ext <;> simp
  add_zero a := by ext <;> simp
  add_comm a b := by ext <;> simp <;> ring
  mul_assoc a b c := by ext <;> simp <;> ring
  one_mul a := by ext <;> simp
  mul_one a := by ext <;> simp
  left_distrib a b c := by ext <;> simp <;> ring
  right_distrib a b c := by ext <;> simp <;> ring
  mul_comm a b := by ext <;> simp <;> ring
  zero_mul a := by ext <;> simp
  mul_zero a := by ext <;> simp
  neg_add_cancel a := by ext <;> simp
  nsmul := nsmulRec
  zsmul := zsmulRec

/-- Real rational embedded as a complex sample. -/
def ofQ (q : ℚ) : Cx := ⟨q, 0⟩

@[simp] theorem ofQ_re (q : ℚ) : (ofQ q).re = q := rfl
@[simp] theorem ofQ_im (q : ℚ) : (ofQ q).im = 0 := rfl

@[simp] theorem ofQ_mul (p q : ℚ) : ofQ p * ofQ q = ofQ (p * q) := by ext <;> simp

@[simp] theorem ofQ_add (p q : ℚ) : ofQ p + ofQ q = ofQ (p + q) := by ext <;> simp

@[simp] theorem ofQ_zero : ofQ 0 = 0 := rfl

@[simp] theorem ofQ_one : ofQ 1 = 1 := rfl

/-- Complex conjugate. -/
def conj (z : Cx) : Cx := ⟨z.re, -z.im⟩

@[simp] theorem conj_re (z : Cx) : (conj z).re = z.re := rfl
@[simp] theorem conj_im (z : Cx) : (conj z).im = -z.im := rfl

@[simp] theorem conj_mul (z w : Cx) : conj (z * w) = conj z * conj w := by ext <;> simp <;> ring

@[simp] theorem conj_one : conj 1 = 1 := by ext <;> simp

theorem conj_pow (z : Cx) (n : ℕ) : conj (z ^ n) = conj z ^ n := by
  induction n with
  | zero => simp
  | succ n ih => rw [pow_succ, pow_succ, conj_mul, ih]

/-- Squared magnitude of a complex sample. -/
def normSq (z : Cx) : ℚ := z.re ^ 2 + z.im ^ 2

theorem normSq_nonneg (z : Cx) : 0 ≤ normSq z := by
  have := sq_nonneg z.re
  have := sq_nonneg z.im
  unfold normSq; linarith

theorem normSq_mul (z w : Cx) : normSq (z * w) = normSq z * normSq w := by
  unfold normSq; simp; ring

@[simp] theorem normSq_conj (z : Cx) : normSq (conj z) = normSq z := by
  unfold normSq; simp

@[simp] theorem normSq_ofQ (q : ℚ) : normSq (ofQ q) = q ^ 2 := by
  unfold normSq; simp

@[simp] theorem normSq_zero : normSq 0 = 0 := by unfold normSq; simp

theorem normSq_eq_zero_iff {z : Cx} : normSq z = 0 ↔ z = 0 := by
  constructor
  · intro h
    have h1 := sq_nonneg z.re
    have h2 := sq_nonneg z.im
    unfold normSq at h
    ext
    · show z.re = 0
      nlinarith
    · show z.im = 0
      nlinarith
  · rintro rfl; simp

theorem mul_self_conj (z : Cx) : z * conj z = ofQ (normSq z) := by
  ext <;> simp [normSq] <;> ring

instance : Nontrivial Cx :=
  ⟨⟨0, 1, fun h => by simpa using congrArg re h⟩⟩

instance : NoZeroDivisors Cx where
  eq_zero_or_eq_zero_of_mul_eq_zero {a b} h := by
    by_contra hc
    push_neg at hc
    have ha := hc.1
    have hb := hc.2
    have ha' : normSq a ≠ 0 := fun h0 => ha (normSq_eq_zero_iff.mp h0)
    have hb' : normSq b ≠ 0 := fun h0 => hb (normSq_eq_zero_iff.mp h0)
    have : normSq (a * b) = 0 := by rw [h]; simp
    rw [normSq_mul] at this
    exact (mul_ne_zero ha' hb') this

end Cx

/-! ### Inner products of sample lists and the Cauchy-Schwarz bound -/

/-- Modelled from the spec: the cross-correlation inner product
of two equal-length stretches of complex samples, the second conjugated. -/
def innerC (x y : List Cx) : Cx := (List.zipWith (fun a b => a * Cx.conj b) x y).sum

/-- Total squared magnitude of a list of complex samples. -/
def sumNormSq (l : List Cx) : ℚ := (l.map Cx.normSq).sum

@[simp] theorem innerC_nil_left (y : List Cx) : innerC [] y = 0 := rfl

@[simp] theorem innerC_nil_right (x : List Cx) : innerC x [] = 0 := by
  cases x <;> rfl

@[simp] theorem innerC_cons (a b : Cx) (x y : List Cx) :
    innerC (a :: x) (b :: y) = a * Cx.conj b + innerC x y := by
  simp [innerC]

@[simp] theorem sumNormSq_nil : sumNormSq [] = 0 := rfl

@[simp] theorem sumNormSq_cons (a : Cx) (l : List Cx) :
    sumNormSq (a :: l) = Cx.normSq a + sumNormSq l := by
  simp [sumNormSq]

theorem sumNormSq_nonneg (l : List Cx) : 0 ≤ sumNormSq l := by
  induction l with
  | nil => simp
  | cons a l ih => have := Cx.normSq_nonneg a; simp; linarith

theorem sumNormSq_rotate (l : List Cx) (n : ℕ) : sumNormSq (l.rotate n) = sumNormSq l := by
  unfold sumNormSq
  exact List.Perm.sum_eq (List.Perm.map Cx.normSq (List.rotate_perm l n))

theorem innerC_self (l : List Cx) : innerC l l = Cx.ofQ (sumNormSq l) := by
  induction l with
  | nil => simp
  | cons a l ih => rw [innerC_cons, ih, Cx.mul_self_conj, Cx.ofQ_add, sumNormSq_cons]

/-- Helper inequality: from a squared bound to a linear bound, used in the
inductive step of Cauchy-Schwarz. -/
theorem two_mul_le_of_sq_le {r p q : ℚ} (h : r ^ 2 ≤ p * q) (hp : 0 ≤ p) (hq : 0 ≤ q) :
    2 * r ≤ p + q := by
  nlinarith [sq_nonneg (p - q), sq_nonneg (p + q - 2 * r)]

theorem reInner_sq_le (u v : Cx) :
    (u.re * v.re + u.im * v.im) ^ 2 ≤ Cx.normSq u * Cx.normSq v := by
  unfold Cx.normSq
  nlinarith [sq_nonneg (u.re * v.im - u.im * v.re)]

/-- Cauchy-Schwarz for the cross-correlation inner product: the squared
magnitude of the inner product is bounded by the product of total
squared magnitudes. -/
theorem normSq_innerC_le (x y : List Cx) :
    Cx.normSq (innerC x y) ≤ sumNormSq x * sumNormSq y := by
  induction x generalizing y with
  | nil => simp
  | cons a x ih =>
    cases y with
    | nil => simpa using mul_nonneg (sumNormSq_nonneg (a :: x)) (le_refl 0)
    | cons b y =>
      have IH := ih y
      have hX := sumNormSq_nonneg x
      have hY := sumNormSq_nonneg y
      have hA := Cx.normSq_nonneg a
      have hB := Cx.normSq_nonneg b
      rw [innerC_cons, sumNormSq_cons, sumNormSq_cons]
      set u := a * Cx.conj b with hu
      set S := innerC x y with hS
      have hnormu : Cx.normSq u = Cx.normSq a * Cx.normSq b := by
        rw [hu, Cx.normSq_mul, Cx.normSq_conj]
      have hexp : Cx.normSq (u + S) =
          Cx.normSq u + Cx.normSq S + 2 * (u.re * S.re + u.im * S.im) := by
        unfold Cx.normSq; simp; ring
      have hkey : (u.re * S.re + u.im * S.im) ^ 2 ≤
          (Cx.normSq a * sumNormSq y) * (sumNormSq x * Cx.normSq b) := by
        calc (u.re * S.re + u.im * S.im) ^ 2 ≤ Cx.normSq u * Cx.normSq S :=
              reInner_sq_le u S
          _ ≤ Cx.normSq u * (sumNormSq x * sumNormSq y) := by
              apply mul_le_mul_of_nonneg_left IH (Cx.normSq_nonneg u)
          _ = (Cx.normSq a * sumNormSq y) * (sumNormSq x * Cx.normSq b) := by
              rw [hnormu]; ring
      have hlin : 2 * (u.re * S.re + u.im * S.im) ≤
          Cx.normSq a * sumNormSq y + sumNormSq x * Cx.normSq b :=
        two_mul_le_of_sq_le hkey (mul_nonneg hA hY) (mul_nonneg hX hB)
      rw [hexp]
      nlinarith [IH, hnormu]

/-! ### Peak search: first-occurrence argmax of the squared magnitude -/

/-- Modelled from the spec: running maximum of the squared SNR magnitude.
The peak statistic compares sample magnitudes; comparing squared magnitudes
gives the same ordering and stays within exact arithmetic. -/
def maxNormSq (l : List Cx) : ℚ := (l.map Cx.normSq).foldr max 0

/-- Modelled from the spec: index of the first occurrence of the maximal
magnitude sample, matching the peak search of the tutorial
(numpy argmax over the absolute SNR series returns the first maximizer). -/
def argmaxNormSq : List Cx → ℕ
  | [] => 0
  | a :: l => if maxNormSq l ≤ Cx.normSq a then 0 else argmaxNormSq l + 1

@[simp] theorem maxNormSq_nil : maxNormSq [] = 0 := rfl

@[simp] theorem maxNormSq_cons (a : Cx) (l : List Cx) :
    maxNormSq (a :: l) = max (Cx.normSq a) (maxNormSq l) := rfl

theorem maxNormSq_nonneg (l : List Cx) : 0 ≤ maxNormSq l := by
  induction l with
  | nil => simp
  | cons a l ih => simp only [maxNormSq_cons, le_max_iff]; right; exact ih

theorem le_maxNormSq_of_mem {l : List Cx} {z : Cx} (hz : z ∈ l) :
    Cx.normSq z ≤ maxNormSq l := by
  induction l with
  | nil => cases hz
  | cons a l ih =>
    rcases List.mem_cons.mp hz with h | h
    · subst h; simp
    · simp only [maxNormSq_cons, le_max_iff]; right; exact ih h

theorem maxNormSq_le_of_forall {l : List Cx} {b : ℚ} (hb : 0 ≤ b)
    (h : ∀ z ∈ l, Cx.normSq z ≤ b) : maxNormSq l ≤ b := by
  induction l with
  | nil => simpa
  | cons a l ih =>
    simp only [maxNormSq_cons, max_le_iff]
    exact ⟨h a (List.mem_cons_self a l), ih fun z hz => h z (List.mem_cons_of_mem a hz)⟩

theorem argmaxNormSq_lt_length {l : List Cx} (h : l ≠ []) : argmaxNormSq l < l.length := by
  induction l with
  | nil => exact absurd rfl h
  | cons a l ih =>
    by_cases hc : maxNormSq l ≤ Cx.normSq a
    · simp [argmaxNormSq, hc]
    · have hl : l ≠ [] := by
        rintro rfl
        exact hc (by simpa using Cx.normSq_nonneg a)
      simp only [argmaxNormSq, hc, if_false, List.length_cons]
      exact Nat.succ_lt_succ (ih hl)

theorem normSq_argmaxNormSq {l : List Cx} (h : l ≠ []) :
    Cx.normSq (l.getD (argmaxNormSq l) 0) = maxNormSq l := by
  induction l with
  | nil => exact absurd rfl h
  | cons a l ih =>
    by_cases hc : maxNormSq l ≤ Cx.normSq a
    · simp [argmaxNormSq, hc, max_eq_left hc]
    · have hl : l ≠ [] := by
        rintro rfl
        exact hc (by simpa using Cx.normSq_nonneg a)
      push_neg at hc
      simp only [argmaxNormSq, not_le.mpr hc, if_false, List.getD_cons_succ, maxNormSq_cons]
      rw [ih hl, max_eq_right (le_of_lt hc)]

theorem lt_maxNormSq_of_lt_argmax {l : List Cx} {j : ℕ} (hj : j < argmaxNormSq l) :
    Cx.normSq (l.getD j 0) < maxNormSq l := by
  induction l generalizing j with
  | nil => simp [argmaxNormSq] at hj
  | cons a l ih =>
    by_cases hc : maxNormSq l ≤ Cx.normSq a
    · simp [argmaxNormSq, hc] at hj
    · push_neg at hc
      simp only [argmaxNormSq, not_le.mpr hc, if_false] at hj
      cases j with
      | zero =>
        simpa [maxNormSq_cons, max_eq_right (le_of_lt hc)] using hc
      | succ j =>
        have := ih (Nat.lt_of_succ_lt_succ hj)
        simpa [maxNormSq_cons, max_eq_right (le_of_lt hc)] using this

/-! ### The data model: time series and frequency series -/

/-- Modelled from the spec: a uniformly sampled series with sample interval
dt and absolute start time t0; sample i carries time stamp t0 + i * dt. -/
structure TimeSeries where
  samples : List Cx
  dt : ℚ
  t0 : ℚ
  deriving DecidableEq

/-- Modelled from the spec: an ordered sequence of complex frequency bins with
uniform spacing df and the epoch of the series it came from. -/
structure FrequencySeries where
  bins : List Cx
  df : ℚ
  epoch : ℚ
  deriving DecidableEq

/-- Modelled from the spec: cyclic shift of the sample vector by an integer
number of samples, treating the data as if it were on a ring; a positive k
moves content toward later indices, so the entry at index t comes from
index (t - k) mod N of the original. -/
def intShift (l : List Cx) (k : ℤ) : List Cx :=
  l.rotate (Int.toNat ((-k) % (l.length : ℤ)))

@[simp] theorem length_intShift (l : List Cx) (k : ℤ) :
    (intShift l k).length = l.length := by
  unfold intShift; exact List.length_rotate l _

theorem sumNormSq_intShift (l : List Cx) (k : ℤ) :
    sumNormSq (intShift l k) = sumNormSq l := sumNormSq_rotate l _

theorem TimeSeries.ext_fields {a b : TimeSeries} (h1 : a.samples = b.samples)
    (h2 : a.dt = b.dt) (h3 : a.t0 = b.t0) : a = b := by
  cases a; cases b; simp_all

namespace TimeSeries

/-- Modelled from the spec: cropping removes a specified duration from the
start and end (in seconds, converted to whole samples), shifting t0 forward
for a start-crop. -/
def crop (ts : TimeSeries) (left right : ℚ) : TimeSeries :=
  let nl := (Int.floor (left / ts.dt)).toNat
  let nr := (Int.floor (right / ts.dt)).toNat
  { samples := (ts.samples.drop nl).take (ts.samples.length - nl - nr)
    dt := ts.dt
    t0 := ts.t0 + (nl : ℚ) * ts.dt }

/-- Modelled from the spec: resize truncates the sample vector or zero-pads
it at the end to reach exactly n samples. -/
def resize (ts : TimeSeries) (n : ℕ) : TimeSeries :=
  { ts with samples := ts.samples.take n ++ List.replicate (n - ts.samples.length) 0 }

@[simp] theorem length_resize (ts : TimeSeries) (n : ℕ) :
    (ts.resize n).samples.length = n := by
  unfold resize
  simp only [List.length_append, List.length_take, List.length_replicate]
  omega

/-- Modelled from the spec: rotate the vector by a fixed amount of time,
treating the data as if it were on a ring; time stamps are not affected,
only the position in the vector is. -/
def cyclicTimeShift (ts : TimeSeries) (t : ℚ) : TimeSeries :=
  { ts with samples := intShift ts.samples (Int.floor (t / ts.dt)) }

@[simp] theorem dt_cyclicTimeShift (ts : TimeSeries) (t : ℚ) :
    (ts.cyclicTimeShift t).dt = ts.dt := rfl

@[simp] theorem length_cyclicTimeShift (ts : TimeSeries) (t : ℚ) :
    (ts.cyclicTimeShift t).samples.length = ts.samples.length := by
  unfold cyclicTimeShift; exact length_intShift _ _

end TimeSeries

/-! ### The discrete transform pair -/

/-- Modelled from the spec: the forward transform of a sample vector, written
for a chosen root of unity.  The tutorial library packs the transform of a
real vector into half-spectrum form; information-wise this is the full
discrete transform, which is what we model.  Bin k is the sum of
x_j * w ^ (j * k). -/
def dftList (w : Cx) (x : List Cx) : List Cx :=
  List.ofFn fun k : Fin x.length =>
    ∑ j ∈ Finset.range x.length, x.getD j 0 * w ^ (j * (k : ℕ))

/-- Modelled from the spec: the inverse transform, dividing by the length and
using the conjugate root. -/
def invDftList (w : Cx) (X : List Cx) : List Cx :=
  List.ofFn fun j : Fin X.length =>
    Cx.ofQ ((X.length : ℚ)⁻¹) *
      ∑ k ∈ Finset.range X.length, X.getD k 0 * (Cx.conj w) ^ ((j : ℕ) * k)

@[simp] theorem length_dftList (w : Cx) (x : List Cx) :
    (dftList w x).length = x.length := by
  unfold dftList; exact List.length_ofFn _

@[simp] theorem length_invDftList (w : Cx) (X : List Cx) :
    (invDftList w X).length = X.length := by
  unfold invDftList; exact List.length_ofFn _

/-- Primitive root-of-unity package: w has order exactly N and unit modulus. -/
def IsPrimRoot (w : Cx) (N : ℕ) : Prop :=
  w ^ N = 1 ∧ Cx.conj w * w = 1 ∧ ∀ m, m < N → 0 < m → w ^ m ≠ 1

instance (w : Cx) (N : ℕ) : Decidable (IsPrimRoot w N) := by
  unfold IsPrimRoot; infer_instance

theorem IsPrimRoot.w_ne_zero {w : Cx} {N : ℕ} (h : IsPrimRoot w N) : w ≠ 0 := by
  intro h0
  have := h.2.1
  rw [h0, mul_zero] at this
  exact one_ne_zero this.symm

/-- Geometric sum of a nontrivial N-th root of unity vanishes. -/
theorem geom_sum_root_eq_zero {z : Cx} {N : ℕ} (hz : z ≠ 1) (hN : z ^ N = 1) :
    ∑ k ∈ Finset.range N, z ^ k = 0 := by
  have h := geom_sum_mul z N
  rw [hN, sub_self] at h
  rcases mul_eq_zero.mp h with h1 | h1
  · exact h1
  · exact absurd (sub_eq_zero.mp h1) hz

theorem natCast_eq_ofQ (n : ℕ) : (n : Cx) = Cx.ofQ (n : ℚ) := by
  induction n with
  | zero => simp
  | succ n ih => rw [Nat.cast_succ, ih, ← Cx.ofQ_one, Cx.ofQ_add]; norm_num

/-- Orthogonality of the root-of-unity characters: the inner sum of the
transform pair collapses to N on the diagonal and 0 off it. -/
theorem root_orthogonality {w : Cx} {N : ℕ} (h : IsPrimRoot w N)
    {i j : ℕ} (hi : i < N) (hj : j < N) :
    ∑ k ∈ Finset.range N, w ^ (i * k) * Cx.conj w ^ (j * k) =
      if i = j then (N : Cx) else 0 := by
  have hterm : ∀ k, w ^ (i * k) * Cx.conj w ^ (j * k) = (w ^ i * Cx.conj w ^ j) ^ k := by
    intro k
    rw [mul_pow, ← pow_mul, ← pow_mul]
  rw [Finset.sum_congr rfl fun k _ => hterm k]
  by_cases hij : i = j
  · subst hij
    have hz : w ^ i * Cx.conj w ^ i = 1 := by
      rw [← mul_pow, mul_comm w (Cx.conj w), h.2.1, one_pow]
    rw [hz, if_pos rfl]
    simp
  · have hzN : (w ^ i * Cx.conj w ^ j) ^ N = 1 := by
      rw [mul_pow, ← pow_mul, ← pow_mul, mul_comm i N, mul_comm j N, pow_mul, pow_mul,
        h.1, ← Cx.conj_pow, h.1, Cx.conj_one, one_pow, one_pow, one_mul]
    have hz1 : w ^ i * Cx.conj w ^ j ≠ 1 := by
      intro hz
      have hw : w ^ i = w ^ j := by
        calc w ^ i = w ^ i * (Cx.conj w * w) ^ j := by rw [h.2.1, one_pow, mul_one]
          _ = w ^ i * (Cx.conj w ^ j * w ^ j) := by rw [mul_pow]
          _ = (w ^ i * Cx.conj w ^ j) * w ^ j := by ring
          _ = w ^ j := by rw [hz, one_mul]
      rcases Nat.lt_or_ge i j with hlt | hge
      · have hsplit : w ^ i * w ^ (j - i) = w ^ i * 1 := by
          rw [← pow_add, mul_one]
          have : i + (j - i) = j := by omega
          rw [this, hw]
        have hcan : w ^ (j - i) = 1 :=
          mul_left_cancel₀ (pow_ne_zero i h.w_ne_zero) hsplit
        exact h.2.2 (j - i) (by omega) (by omega) hcan
      · have hlt : j < i := by omega
        have hsplit : w ^ j * w ^ (i - j) = w ^ j * 1 := by
          rw [← pow_add, mul_one]
          have : j + (i - j) = i := by omega
          rw [this, hw]
        have hcan : w ^ (i - j) = 1 :=
          mul_left_cancel₀ (pow_ne_zero j h.w_ne_zero) hsplit
        exact h.2.2 (i - j) (by omega) (by omega) hcan
    rw [if_neg hij]
    exact geom_sum_root_eq_zero hz1 hzN

/-- Round trip of the transform pair: the inverse transform undoes the
forward transform, sample by sample. -/
theorem invDftList_dftList {w : Cx} (x : List Cx) (h : IsPrimRoot w x.length) :
    invDftList w (dftList w x) = x := by
  set N := x.length with hN
  apply List.ext_getElem
  · simp
  intro j h1 h2
  have hjN : j < N := h2
  have hlen : (dftList w x).length = N := by simp
  have hbins : ∀ k, k < N → (dftList w x).getD k 0 =
      ∑ i ∈ Finset.range N, x.getD i 0 * w ^ (i * k) := by
    intro k hk
    rw [List.getD_eq_getElem _ 0 (by simpa [hlen] using hk)]
    unfold dftList
    rw [List.getElem_ofFn]
  have hstep : (invDftList w (dftList w x))[j] =
      Cx.ofQ ((N : ℚ)⁻¹) *
        ∑ k ∈ Finset.range N, (dftList w x).getD k 0 * Cx.conj w ^ (j * k) := by
    unfold invDftList
    rw [List.getElem_ofFn]
    simp [hlen]
  rw [hstep]
  have hswap : ∑ k ∈ Finset.range N, (dftList w x).getD k 0 * Cx.conj w ^ (j * k) =
      ∑ i ∈ Finset.range N, x.getD i 0 *
        ∑ k ∈ Finset.range N, w ^ (i * k) * Cx.conj w ^ (j * k) := by
    calc ∑ k ∈ Finset.range N, (dftList w x).getD k 0 * Cx.conj w ^ (j * k)
        = ∑ k ∈ Finset.range N, ∑ i ∈ Finset.range N,
            x.getD i 0 * w ^ (i * k) * Cx.conj w ^ (j * k) := by
          apply Finset.sum_congr rfl
          intro k hk
          rw [hbins k (Finset.mem_range.mp hk), Finset.sum_mul]
      _ = ∑ i ∈ Finset.range N, ∑ k ∈ Finset.range N,
            x.getD i 0 * w ^ (i * k) * Cx.conj w ^ (j * k) := Finset.sum_comm
      _ = ∑ i ∈ Finset.range N, x.getD i 0 *
            ∑ k ∈ Finset.range N, w ^ (i * k) * Cx.conj w ^ (j * k) := by
          apply Finset.sum_congr rfl
          intro i _
          rw [Finset.mul_sum]
          apply Finset.sum_congr rfl
          intro k _
          ring
  rw [hswap]
  have hdiag : ∑ i ∈ Finset.range N, x.getD i 0 *
      ∑ k ∈ Finset.range N, w ^ (i * k) * Cx.conj w ^ (j * k) =
      x.getD j 0 * (N : Cx) := by
    have hcong : ∀ i ∈ Finset.range N, x.getD i 0 *
        (∑ k ∈ Finset.range N, w ^ (i * k) * Cx.conj w ^ (j * k)) =
        if i = j then x.getD i 0 * (N : Cx) else 0 := by
      intro i hi
      rw [root_orthogonality h (Finset.mem_range.mp hi) hjN]
      by_cases hij : i = j
      · simp [hij]
      · simp [hij]
    rw [Finset.sum_congr rfl hcong,
      Finset.sum_ite_eq' (Finset.range N) j fun i => x.getD i 0 * (N : Cx),
      if_pos (Finset.mem_range.mpr hjN)]
  rw [hdiag]
  have hNQ : ((N : ℚ)) ≠ 0 := by
    have hpos : 0 < N := lt_of_le_of_lt (Nat.zero_le j) hjN
    exact Nat.cast_ne_zero.mpr (by omega)
  rw [natCast_eq_ofQ]
  rw [List.getD_eq_getElem _ 0 hjN]
  calc Cx.ofQ (N : ℚ)⁻¹ * (x[j] * Cx.ofQ (N : ℚ))
      = x[j] * (Cx.ofQ (N : ℚ)⁻¹ * Cx.ofQ (N : ℚ)) := by ring
    _ = x[j] * Cx.ofQ 1 := by rw [Cx.ofQ_mul, inv_mul_cancel₀ hNQ]
    _ = x[j] := by rw [Cx.ofQ_one, mul_one]

/-- Scaled inverse transform: a constant factor on every bin passes through
the inverse transform onto every sample. -/
theorem invDftList_map_mul (w c : Cx) (X : List Cx) :
    invDftList w (X.map (fun z => z * c)) = (invDftList w X).map (fun z => z * c) := by
  apply List.ext_getElem
  · simp
  intro j h1 h2
  have hlen : (X.map fun z => z * c).length = X.length := by simp
  have hj : j < X.length := by simpa using h2
  unfold invDftList
  rw [List.getElem_map]
  rw [List.getElem_ofFn, List.getElem_ofFn]
  simp only [hlen]
  have hterm : ∀ k ∈ Finset.range X.length,
      (X.map fun z => z * c).getD k 0 * Cx.conj w ^ (j * k) =
      (X.getD k 0 * Cx.conj w ^ (j * k)) * c := by
    intro k hk
    have hkX : k < X.length := Finset.mem_range.mp hk
    have : (X.map fun z => z * c).getD k 0 = X.getD k 0 * c := by
      rw [List.getD_eq_getElem _ 0 (by simpa using hkX), List.getElem_map,
        List.getD_eq_getElem _ 0 hkX]
    rw [this]; ring
  rw [Finset.sum_congr rfl hterm, ← Finset.sum_mul]
  ring

/-! ### Transforms between the two series representations -/

/-- Modelled from the spec: forward transform of a TimeSeries, producing a
FrequencySeries with bin spacing df equal to the reciprocal of the spanned
duration N * dt and remembering the epoch. -/
def TimeSeries.to_frequencyseries (w : Cx) (ts : TimeSeries) : FrequencySeries :=
  { bins := dftList w ts.samples
    df := ((ts.samples.length : ℚ) * ts.dt)⁻¹
    epoch := ts.t0 }

/-- Modelled from the spec: inverse transform of a FrequencySeries back to a
TimeSeries, recovering dt as the reciprocal of N * df. -/
def FrequencySeries.to_timeseries (w : Cx) (fs : FrequencySeries) : TimeSeries :=
  { samples := invDftList w fs.bins
    dt := ((fs.bins.length : ℚ) * fs.df)⁻¹
    t0 := fs.epoch }

/-- Uniform complex scaling of every frequency bin. -/
def FrequencySeries.scaleBins (fs : FrequencySeries) (c : Cx) : FrequencySeries :=
  { fs with bins := fs.bins.map (fun z => z * c) }

/-- Uniform complex scaling of every sample. -/
def TimeSeries.scaleSamples (ts : TimeSeries) (c : Cx) : TimeSeries :=
  { ts with samples := ts.samples.map (fun z => c * z) }

/-! ### The matched filter engine -/

/-- Modelled from the spec: the complex SNR series of the matched filter.
The spec computes the inverse transform of data_freq * conj(template_freq)
weighted by the inverse PSD, normalized by sigma; by the convolution theorem
that the spec itself invokes, this equals the global cyclic cross-correlation
of the data against the effective (inverse-PSD-weighted) template kernel q,
which is the form modelled here.  Entry t is the correlation at lag t,
normalized by the template self-overlap sigma. -/
def matchedFilterSNR (q data : List Cx) (sigma : ℚ) : List Cx :=
  List.ofFn fun t : Fin data.length =>
    Cx.ofQ sigma⁻¹ * innerC (data.rotate (t : ℕ)) q

@[simp] theorem length_matchedFilterSNR (q data : List Cx) (sigma : ℚ) :
    (matchedFilterSNR q data sigma).length = data.length := by
  unfold matchedFilterSNR; simp

/-- Error taxonomy of the pipeline, from the spec's error-handling design. -/
inductive PipelineError where
  | sampleRateMismatch
  | insufficientData
  deriving DecidableEq

/-- Modelled from the spec: the matched-filter operation.  It checks the
caller contract synchronously at the start: operands with differing dt fail
with a SampleRateMismatchError, data shorter than the template fails with an
InsufficientDataError; otherwise it produces the complex SNR series with the
data's dt and start time. -/
def matched_filter (template data : TimeSeries) (sigma : ℚ) :
    Except PipelineError TimeSeries :=
  if template.dt = data.dt then
    if template.samples.length ≤ data.samples.length then
      Except.ok { samples := matchedFilterSNR template.samples data.samples sigma
                  dt := data.dt
                  t0 := data.t0 }
    else Except.error PipelineError.insufficientData
  else Except.error PipelineError.sampleRateMismatch

/-- Peak extraction as in the tutorial: the first index of maximal SNR
magnitude gives the pair of its time stamp and complex SNR value. -/
def extractPeak (ts : TimeSeries) : ℚ × Cx :=
  let p := argmaxNormSq ts.samples
  (ts.t0 + (p : ℚ) * ts.dt, ts.samples.getD p 0)

/-! ### Pipeline constants of the tutorial's matched-filter run -/

/-- Corrupted span accounted to the template length in the tutorial
(a generous 4 seconds). -/
def templateCorruptDuration : ℚ := 4

/-- Corrupted span of the truncated inverse-PSD filter in the tutorial
(4 seconds of effective filter length). -/
def filterCorruptDuration : ℚ := 4

/-- Seconds cropped from the start of the SNR series in the tutorial:
4 for the PSD filter plus 4 more for the template length. -/
def snrCropStart : ℚ := 4 + 4

/-- Seconds cropped from the end of the SNR series in the tutorial. -/
def snrCropEnd : ℚ := 4

/-- The tutorial's crop of the SNR series before peak-searching. -/
def cropSNR (snr : TimeSeries) : TimeSeries := snr.crop snrCropStart snrCropEnd

/-! ### Spectral estimation and conditioning -/

/-- Energy of the tapering window. -/
def windowEnergy (window : List ℚ) : ℚ := (window.map fun v => v * v).sum

/-- A data segment multiplied pointwise by the tapering window. -/
def windowedSegment (window seg : List ℚ) : List Cx :=
  List.zipWith (fun a b => Cx.ofQ (a * b)) window seg

/-- Modelled from the spec: a segment's periodogram, the squared magnitude of
the forward transform of the windowed segment. -/
def periodogram (w : Cx) (window seg : List ℚ) : List ℚ :=
  (dftList w (windowedSegment window seg)).map Cx.normSq

/-- Number of overlapping segments of the given length and stride that fit. -/
def numSegments (n segLen stride : ℕ) : ℕ :=
  if segLen ≤ n ∧ 0 < stride then (n - segLen) / stride + 1 else 0

/-- The segment of length segLen starting at sample s. -/
def welchSegment (x : List ℚ) (segLen s : ℕ) : List ℚ := (x.drop s).take segLen

/-- Modelled from the spec: the Welch spectral estimator.  The series is cut
into overlapping windows, each is tapered and sent through the periodogram,
and the periodograms are averaged bin by bin, normalized by window energy
and dt. -/
def psdWelch (w : Cx) (x : List ℚ) (segLen stride : ℕ) (window : List ℚ)
    (dt : ℚ) : List ℚ :=
  let m := numSegments x.length segLen stride
  let ps := (List.range m).map fun i => periodogram w window (welchSegment x segLen (i * stride))
  let c := dt / windowEnergy window
  List.ofFn fun k : Fin segLen =>
    c * ((ps.map fun p => p.getD (k : ℕ) 0).sum / (m : ℚ))

/-- Modelled from the spec: linear-domain interpolation of a PSD onto a new
frequency grid of n bins with target spacing tdf; bin j sits at position
j * tdf / df between the two nearest original bins and blends them linearly. -/
def interpolatePSD (p : List ℚ) (df tdf : ℚ) (n : ℕ) : List ℚ :=
  List.ofFn fun j : Fin n =>
    let pos : ℚ := (j : ℚ) * tdf / df
    let i : ℕ := (Int.floor pos).toNat
    let frac : ℚ := pos - (i : ℚ)
    (1 - frac) * p.getD i 0 + frac * p.getD (i + 1) 0

/-! ### Alignment stage and the tutorial pipeline glue -/

/-- Modelled from the spec and the tutorial cell: align the template to a
detected peak.  The template is cyclically time-shifted by the peak time
minus the data start, scaled by 1/sigma, then scaled by the complex peak
value through a forward/inverse transform pair, and restamped to start at
the data's start time. -/
def align (w : Cx) (template : TimeSeries) (time dataStart sigma : ℚ)
    (snrp : Cx) : TimeSeries :=
  let shifted := template.cyclicTimeShift (time - dataStart)
  let scaled := shifted.scaleSamples (Cx.ofQ sigma⁻¹)
  let back := ((scaled.to_frequencyseries w).scaleBins snrp).to_timeseries w
  { back with t0 := dataStart }

/-- The tutorial's template preparation: generate the waveform with the
conditioned data's own delta_t, resize it to the conditioned data's length,
and cyclically shift the merger feature into position. -/
def makeTemplate (conditioned : TimeSeries) (raw : List Cx) (rawStart : ℚ) :
    TimeSeries :=
  let hp : TimeSeries := { samples := raw, dt := conditioned.dt, t0 := rawStart }
  let resized := hp.resize conditioned.samples.length
  resized.cyclicTimeShift resized.t0

/-- The tutorial's matched-filter invocation on a prepared template. -/
def snrStage (conditioned : TimeSeries) (raw : List Cx) (rawStart sigma : ℚ) :
    Except PipelineError TimeSeries :=
  matched_filter (makeTemplate conditioned raw rawStart) conditioned sigma

/-! ### Further argmax helpers -/

theorem argmaxNormSq_eq_zero {l : List Cx}
    (h : ∀ z ∈ l, Cx.normSq z ≤ Cx.normSq (l.getD 0 0)) : argmaxNormSq l = 0 := by
  cases l with
  | nil => rfl
  | cons a l =>
    simp only [List.getD_cons_zero] at h
    unfold argmaxNormSq
    rw [if_pos]
    exact maxNormSq_le_of_forall (Cx.normSq_nonneg a)
      fun z hz => h z (List.mem_cons_of_mem a hz)

theorem argmaxNormSq_eq_of_strict {l : List Cx} {i : ℕ} (hi : i < l.length)
    (h : ∀ j, j < l.length → j ≠ i →
      Cx.normSq (l.getD j 0) < Cx.normSq (l.getD i 0)) :
    argmaxNormSq l = i := by
  have hne : l ≠ [] := by
    intro h0; subst h0; simp at hi
  by_contra hcon
  have hplt := argmaxNormSq_lt_length hne
  have h1 : Cx.normSq (l.getD (argmaxNormSq l) 0) = maxNormSq l := normSq_argmaxNormSq hne
  have h2 : Cx.normSq (l.getD i 0) ≤ maxNormSq l := by
    apply le_maxNormSq_of_mem
    rw [List.getD_eq_getElem _ 0 hi]
    exact List.getElem_mem hi
  have h3 := h _ hplt hcon
  rw [h1] at h3
  linarith

/-! ### Claim theorems -/

/-- Claim C2: peak extraction returns the pair of time stamp and complex SNR
value at the index maximizing the SNR magnitude over the series, and when the
maximum magnitude occurs at more than one index the first occurrence wins:
all strictly earlier indices carry strictly smaller magnitude. -/
theorem C2_peak_extraction_argmax (ts : TimeSeries) (h : ts.samples ≠ []) :
    extractPeak ts = (ts.t0 + (argmaxNormSq ts.samples : ℚ) * ts.dt,
        ts.samples.getD (argmaxNormSq ts.samples) 0) ∧
    (∀ j, j < ts.samples.length →
      Cx.normSq (ts.samples.getD j 0) ≤
        Cx.normSq (ts.samples.getD (argmaxNormSq ts.samples) 0)) ∧
    (∀ j, j < argmaxNormSq ts.samples →
      Cx.normSq (ts.samples.getD j 0) <
        Cx.normSq (ts.samples.getD (argmaxNormSq ts.samples) 0)) := by
  refine ⟨rfl, ?_, ?_⟩
  · intro j hj
    rw [normSq_argmaxNormSq h]
    apply le_maxNormSq_of_mem
    rw [List.getD_eq_getElem _ 0 hj]
    exact List.getElem_mem hj
  · intro j hj
    rw [normSq_argmaxNormSq h]
    exact lt_maxNormSq_of_lt_argmax hj

/-- Witness for C2 on a concrete series with a tied maximum at indices 1 and 2:
the returned index is 1, the first occurrence. -/
theorem C2_peak_extraction_argmax_witness :
    (TimeSeries.mk [Cx.mk 1 0, Cx.mk 0 2, Cx.mk 2 0] 1 0).samples ≠ [] ∧
    (extractPeak (TimeSeries.mk [Cx.mk 1 0, Cx.mk 0 2, Cx.mk 2 0] 1 0) =
      ((TimeSeries.mk [Cx.mk 1 0, Cx.mk 0 2, Cx.mk 2 0] 1 0).t0 +
        (argmaxNormSq (TimeSeries.mk [Cx.mk 1 0, Cx.mk 0 2, Cx.mk 2 0] 1 0).samples : ℚ) *
          (TimeSeries.mk [Cx.mk 1 0, Cx.mk 0 2, Cx.mk 2 0] 1 0).dt,
        (TimeSeries.mk [Cx.mk 1 0, Cx.mk 0 2, Cx.mk 2 0] 1 0).samples.getD
          (argmaxNormSq (TimeSeries.mk [Cx.mk 1 0, Cx.mk 0 2, Cx.mk 2 0] 1 0).samples) 0) ∧
    (∀ j, j < (TimeSeries.mk [Cx.mk 1 0, Cx.mk 0 2, Cx.mk 2 0] 1 0).samples.length →
      Cx.normSq ((TimeSeries.mk [Cx.mk 1 0, Cx.mk 0 2, Cx.mk 2 0] 1 0).samples.getD j 0) ≤
        Cx.normSq ((TimeSeries.mk [Cx.mk 1 0, Cx.mk 0 2, Cx.mk 2 0] 1 0).samples.getD
          (argmaxNormSq (TimeSeries.mk [Cx.mk 1 0, Cx.mk 0 2, Cx.mk 2 0] 1 0).samples) 0)) ∧
    (∀ j, j < argmaxNormSq (TimeSeries.mk [Cx.mk 1 0, Cx.mk 0 2, Cx.mk 2 0] 1 0).samples →
      Cx.normSq ((TimeSeries.mk [Cx.mk 1 0, Cx.mk 0 2, Cx.mk 2 0] 1 0).samples.getD j 0) <
        Cx.normSq ((TimeSeries.mk [Cx.mk 1 0, Cx.mk 0 2, Cx.mk 2 0] 1 0).samples.getD
          (argmaxNormSq (TimeSeries.mk [Cx.mk 1 0, Cx.mk 0 2, Cx.mk 2 0] 1 0).samples) 0))) :=
  ⟨by decide, C2_peak_extraction_argmax (TimeSeries.mk [Cx.mk 1 0, Cx.mk 0 2, Cx.mk 2 0] 1 0)
    (by decide)⟩

/-- Claim C8: for every pair of template and data series handed to the
matched-filter operation with differing sample intervals, the operation fails
synchronously with a SampleRateMismatchError and produces no output series. -/
theorem C8_sample_rate_mismatch (template data : TimeSeries) (sigma : ℚ)
    (h : template.dt ≠ data.dt) :
    matched_filter template data sigma =
      Except.error PipelineError.sampleRateMismatch := by
  unfold matched_filter
  rw [if_neg h]

/-- Witness for C8 at a concrete pair of series with dt 1 and 1/2. -/
theorem C8_sample_rate_mismatch_witness :
    (TimeSeries.mk [] 1 0).dt ≠ (TimeSeries.mk [] (1/2) 0).dt ∧
    matched_filter (TimeSeries.mk [] 1 0) (TimeSeries.mk [] (1/2) 0) 1 =
      Except.error PipelineError.sampleRateMismatch :=
  ⟨by norm_num, C8_sample_rate_mismatch (TimeSeries.mk [] 1 0)
    (TimeSeries.mk [] (1/2) 0) 1 (by norm_num)⟩

/-- Claim C10: in the tutorial pipeline the template is generated with the
conditioned data's own delta_t and resized to the conditioned data's exact
length before the matched filter runs, so the matched filter's error
branches (sample-rate mismatch, insufficient data) are unreachable and it
always returns an SNR series. -/
theorem C10_pipeline_preconditions (conditioned : TimeSeries) (raw : List Cx)
    (rawStart sigma : ℚ) :
    ∃ snr, snrStage conditioned raw rawStart sigma = Except.ok snr := by
  unfold snrStage matched_filter
  have hdt : (makeTemplate conditioned raw rawStart).dt = conditioned.dt := rfl
  have hlen : (makeTemplate conditioned raw rawStart).samples.length =
      conditioned.samples.length := by
    unfold makeTemplate
    rw [TimeSeries.length_cyclicTimeShift, TimeSeries.length_resize]
  rw [if_pos hdt, if_pos (le_of_eq hlen)]
  exact ⟨_, rfl⟩

/-- Entry t of the SNR series, for t within range. -/
theorem matchedFilterSNR_getD (q data : List Cx) (sigma : ℚ) {t : ℕ}
    (ht : t < data.length) :
    (matchedFilterSNR q data sigma).getD t 0 =
      Cx.ofQ sigma⁻¹ * innerC (data.rotate t) q := by
  rw [List.getD_eq_getElem _ 0 (by simpa using ht)]
  unfold matchedFilterSNR
  rw [List.getElem_ofFn]

/-- Claim C3: matched-filtering a template against data equal to the template
itself, with flat unit PSD (so the correlation kernel is the template itself)
and sigma the template's self-overlap square root, yields an SNR series whose
peak sits at zero offset and whose value there is the real number sigma: the
self-normalized amplitude, so a unit-amplitude template (sigma = 1) gives SNR
equal to 1. -/
theorem C3_unit_response (h : List Cx) (sigma : ℚ) (hne : h ≠ [])
    (hpos : 0 < sigma) (hsq : sigma ^ 2 = sumNormSq h) :
    argmaxNormSq (matchedFilterSNR h h sigma) = 0 ∧
    (matchedFilterSNR h h sigma).getD 0 0 = Cx.ofQ sigma := by
  have hlen : 0 < h.length := List.length_pos.mpr hne
  have hs0 : (matchedFilterSNR h h sigma).getD 0 0 = Cx.ofQ sigma := by
    rw [matchedFilterSNR_getD h h sigma hlen, List.rotate_zero, innerC_self,
      Cx.ofQ_mul, ← hsq]
    congr 1
    rw [sq]
    field_simp
  refine ⟨?_, hs0⟩
  apply argmaxNormSq_eq_zero
  intro z hz
  unfold matchedFilterSNR at hz
  rcases (List.mem_ofFn _ _).mp hz with ⟨t, rfl⟩
  rw [hs0, Cx.normSq_ofQ]
  have hb : Cx.normSq (Cx.ofQ sigma⁻¹ * innerC (h.rotate (t : ℕ)) h) ≤
      sigma⁻¹ ^ 2 * (sumNormSq h * sumNormSq h) := by
    rw [Cx.normSq_mul, Cx.normSq_ofQ]
    apply mul_le_mul_of_nonneg_left _ (sq_nonneg _)
    calc Cx.normSq (innerC (h.rotate (t : ℕ)) h)
        ≤ sumNormSq (h.rotate (t : ℕ)) * sumNormSq h := normSq_innerC_le _ _
      _ = sumNormSq h * sumNormSq h := by rw [sumNormSq_rotate]
  have heq : sigma⁻¹ ^ 2 * (sumNormSq h * sumNormSq h) = sigma ^ 2 := by
    rw [← hsq]
    field_simp
  calc Cx.normSq (Cx.ofQ sigma⁻¹ * innerC (h.rotate (t : ℕ)) h)
      ≤ sigma⁻¹ ^ 2 * (sumNormSq h * sumNormSq h) := hb
    _ = sigma ^ 2 := heq

/-- Witness for C3 at the unit-amplitude template (3/5, 4/5): sigma = 1 and
the peak SNR is the real number 1 at zero offset. -/
theorem C3_unit_response_witness :
    ([Cx.mk (3/5) 0, Cx.mk (4/5) 0] ≠ ([] : List Cx) ∧ (0:ℚ) < 1 ∧
      (1:ℚ) ^ 2 = sumNormSq [Cx.mk (3/5) 0, Cx.mk (4/5) 0]) ∧
    (argmaxNormSq (matchedFilterSNR [Cx.mk (3/5) 0, Cx.mk (4/5) 0]
        [Cx.mk (3/5) 0, Cx.mk (4/5) 0] 1) = 0 ∧
      (matchedFilterSNR [Cx.mk (3/5) 0, Cx.mk (4/5) 0]
        [Cx.mk (3/5) 0, Cx.mk (4/5) 0] 1).getD 0 0 = Cx.ofQ 1) :=
  ⟨⟨by simp, by norm_num, by norm_num [sumNormSq, Cx.normSq]⟩,
    C3_unit_response [Cx.mk (3/5) 0, Cx.mk (4/5) 0] 1 (by simp) (by norm_num)
      (by norm_num [sumNormSq, Cx.normSq])⟩

/-- Claim C6: applying the forward transform and then the inverse transform
to a TimeSeries returns a TimeSeries with the same samples, the same dt and
the same start time (exact arithmetic stands in for floating-point
tolerance). -/
theorem C6_transform_round_trip (w : Cx) (ts : TimeSeries)
    (hroot : IsPrimRoot w ts.samples.length)
    (hlen : ts.samples.length ≠ 0) (hdt : ts.dt ≠ 0) :
    (ts.to_frequencyseries w).to_timeseries w = ts := by
  obtain ⟨samples, dt, t0⟩ := ts
  unfold TimeSeries.to_frequencyseries FrequencySeries.to_timeseries
  simp only at hroot hlen hdt
  have hsamples : invDftList w (dftList w samples) = samples :=
    invDftList_dftList samples hroot
  have hNQ : ((samples.length : ℚ)) ≠ 0 := Nat.cast_ne_zero.mpr hlen
  have hdt' : (((dftList w samples).length : ℚ) *
      ((samples.length : ℚ) * dt)⁻¹)⁻¹ = dt := by
    rw [length_dftList]
    field_simp
  simp only [hsamples, hdt']

/-- Witness for C6 on a two-sample series with root of unity -1. -/
theorem C6_transform_round_trip_witness :
    (IsPrimRoot (Cx.mk (-1) 0) (TimeSeries.mk [Cx.mk 1 2, Cx.mk 3 (-1)] (1/2) 3).samples.length ∧
      (TimeSeries.mk [Cx.mk 1 2, Cx.mk 3 (-1)] (1/2) 3).samples.length ≠ 0 ∧
      (TimeSeries.mk [Cx.mk 1 2, Cx.mk 3 (-1)] (1/2) 3).dt ≠ 0) ∧
    ((TimeSeries.mk [Cx.mk 1 2, Cx.mk 3 (-1)] (1/2) 3).to_frequencyseries
        (Cx.mk (-1) 0)).to_timeseries (Cx.mk (-1) 0) =
      TimeSeries.mk [Cx.mk 1 2, Cx.mk 3 (-1)] (1/2) 3 :=
  ⟨⟨by
      refine ⟨?_, ?_, ?_⟩
      · show Cx.mk (-1) 0 ^ 2 = 1
        rw [sq]
        ext <;> norm_num
      · show Cx.conj (Cx.mk (-1) 0) * Cx.mk (-1) 0 = 1
        ext <;> norm_num [Cx.conj]
      · intro m hm hm'
        simp only [List.length_cons, List.length_nil] at hm
        have hm1 : m = 1 := by omega
        subst hm1
        intro hcon
        have := congrArg Cx.re hcon
        norm_num at this,
    by simp, by norm_num⟩,
    C6_transform_round_trip (Cx.mk (-1) 0) (TimeSeries.mk [Cx.mk 1 2, Cx.mk 3 (-1)] (1/2) 3)
      (by
        refine ⟨?_, ?_, ?_⟩
        · show Cx.mk (-1) 0 ^ 2 = 1
          rw [sq]
          ext <;> norm_num
        · show Cx.conj (Cx.mk (-1) 0) * Cx.mk (-1) 0 = 1
          ext <;> norm_num [Cx.conj]
        · intro m hm hm'
          simp only [List.length_cons, List.length_nil] at hm
          have hm1 : m = 1 := by omega
          subst hm1
          intro hcon
          have := congrArg Cx.re hcon
          norm_num at this)
      (by simp) (by norm_num)⟩

/-- Number of samples worth of corruption at each end of the SNR series:
the larger of the template allowance and the inverse-PSD filter support,
in samples at the given dt. -/
def corruptSamples (dt : ℚ) : ℕ :=
  (Int.floor (max templateCorruptDuration filterCorruptDuration / dt)).toNat

/-- Samples removed from the start of the SNR series by the tutorial crop. -/
def cropStartSamples (dt : ℚ) : ℕ := (Int.floor (snrCropStart / dt)).toNat

/-- Samples removed from the end of the SNR series by the tutorial crop. -/
def cropEndSamples (dt : ℚ) : ℕ := (Int.floor (snrCropEnd / dt)).toNat

/-- Claim C1: before peak-searching, the tutorial crops the SNR series so
that at least max(template corruption, filter corruption) worth of samples
disappear from each end; consequently every surviving sample sits at least
that far from both ends of the raw SNR series, so no sample contaminated by
cyclic wraparound of the template or the inverse-PSD filter reaches the
peak search. -/
theorem C1_crop_removes_corrupted_ends (snr : TimeSeries) (hdt : 0 < snr.dt) :
    corruptSamples snr.dt ≤ cropStartSamples snr.dt ∧
    corruptSamples snr.dt ≤ cropEndSamples snr.dt ∧
    ∀ i, i < (cropSNR snr).samples.length →
      (cropSNR snr).samples.getD i 0 =
        snr.samples.getD (i + cropStartSamples snr.dt) 0 ∧
      corruptSamples snr.dt ≤ i + cropStartSamples snr.dt ∧
      i + cropStartSamples snr.dt + corruptSamples snr.dt < snr.samples.length := by
  have hmax : max templateCorruptDuration filterCorruptDuration = 4 := by
    unfold templateCorruptDuration filterCorruptDuration
    norm_num
  have hc_end : corruptSamples snr.dt = cropEndSamples snr.dt := by
    unfold corruptSamples cropEndSamples snrCropEnd
    rw [hmax]
  have hc_start : corruptSamples snr.dt ≤ cropStartSamples snr.dt := by
    unfold corruptSamples cropStartSamples snrCropStart
    rw [hmax]
    apply Int.toNat_le_toNat
    apply Int.floor_le_floor
    exact (div_le_div_iff_of_pos_right hdt).mpr (by norm_num)
  refine ⟨hc_start, le_of_eq hc_end, ?_⟩
  intro i hi
  set nl := cropStartSamples snr.dt with hnl
  set nr := cropEndSamples snr.dt with hnr
  have hcrop : (cropSNR snr).samples =
      (snr.samples.drop nl).take (snr.samples.length - nl - nr) := rfl
  have hlen : (cropSNR snr).samples.length =
      min (snr.samples.length - nl - nr) (snr.samples.length - nl) := by
    rw [hcrop, List.length_take, List.length_drop]
  rw [hlen] at hi
  have hbound : i + nl + nr < snr.samples.length := by omega
  have hgetD : (cropSNR snr).samples.getD i 0 = snr.samples.getD (i + nl) 0 := by
    rw [hcrop]
    have hi1 : i < ((snr.samples.drop nl).take (snr.samples.length - nl - nr)).length := by
      rw [List.length_take, List.length_drop]; omega
    have hi2 : i < (snr.samples.drop nl).length := by
      rw [List.length_drop]; omega
    have hi3 : i + nl < snr.samples.length := by omega
    rw [List.getD_eq_getElem _ 0 hi1, List.getD_eq_getElem _ 0 hi3,
      List.getElem_take, List.getElem_drop]
    congr 1
    omega
  exact ⟨hgetD, by omega, by omega⟩

/-- Witness for C1 on a 13-sample SNR series with dt 1: the crop removes
8 samples at the start and 4 at the end, leaving index 8 of the original,
which is at least 4 samples away from both ends. -/
theorem C1_crop_removes_corrupted_ends_witness :
    (0:ℚ) < (TimeSeries.mk (List.replicate 13 (Cx.mk 1 0)) 1 0).dt ∧
    (corruptSamples (TimeSeries.mk (List.replicate 13 (Cx.mk 1 0)) 1 0).dt ≤
        cropStartSamples (TimeSeries.mk (List.replicate 13 (Cx.mk 1 0)) 1 0).dt ∧
      corruptSamples (TimeSeries.mk (List.replicate 13 (Cx.mk 1 0)) 1 0).dt ≤
        cropEndSamples (TimeSeries.mk (List.replicate 13 (Cx.mk 1 0)) 1 0).dt ∧
      ∀ i, i < (cropSNR (TimeSeries.mk (List.replicate 13 (Cx.mk 1 0)) 1 0)).samples.length →
        (cropSNR (TimeSeries.mk (List.replicate 13 (Cx.mk 1 0)) 1 0)).samples.getD i 0 =
          (TimeSeries.mk (List.replicate 13 (Cx.mk 1 0)) 1 0).samples.getD
            (i + cropStartSamples (TimeSeries.mk (List.replicate 13 (Cx.mk 1 0)) 1 0).dt) 0 ∧
        corruptSamples (TimeSeries.mk (List.replicate 13 (Cx.mk 1 0)) 1 0).dt ≤
          i + cropStartSamples (TimeSeries.mk (List.replicate 13 (Cx.mk 1 0)) 1 0).dt ∧
        i + cropStartSamples (TimeSeries.mk (List.replicate 13 (Cx.mk 1 0)) 1 0).dt +
            corruptSamples (TimeSeries.mk (List.replicate 13 (Cx.mk 1 0)) 1 0).dt <
          (TimeSeries.mk (List.replicate 13 (Cx.mk 1 0)) 1 0).samples.length) :=
  ⟨by norm_num,
    C1_crop_removes_corrupted_ends (TimeSeries.mk (List.replicate 13 (Cx.mk 1 0)) 1 0)
      (by norm_num)⟩

/-! ### Time-shift equivariance of the matched filter -/

/-- Modelled from the spec: shifting the input data of a matched-filter run
by an integer number of samples, cyclically, with time stamps unaffected. -/
def shiftData (ts : TimeSeries) (k : ℤ) : TimeSeries :=
  { ts with samples := intShift ts.samples k }

/-- The SNR series of cyclically shifted data is the cyclically shifted SNR
series of the original data. -/
theorem matchedFilterSNR_intShift (q data : List Cx) (sigma : ℚ) (k : ℤ) :
    matchedFilterSNR q (intShift data k) sigma =
      intShift (matchedFilterSNR q data sigma) k := by
  set N := data.length with hN
  set m := Int.toNat ((-k) % (N : ℤ)) with hm
  have hsnr_len : (matchedFilterSNR q data sigma).length = N := by simp
  have hshift_m : intShift (matchedFilterSNR q data sigma) k =
      (matchedFilterSNR q data sigma).rotate m := by
    unfold intShift
    rw [hsnr_len]
  have hdata_m : intShift data k = data.rotate m := by
    unfold intShift
    rw [← hN]
  apply List.ext_get
  · simp
  intro t h1 h2
  have htN : t < N := by simpa using h2
  have hlhs : (matchedFilterSNR q (intShift data k) sigma).get ⟨t, h1⟩ =
      Cx.ofQ sigma⁻¹ * innerC (data.rotate (m + t)) q := by
    unfold matchedFilterSNR
    rw [List.get_ofFn]
    simp only [Fin.coe_cast, Fin.cast_mk, Fin.val_mk]
    rw [hdata_m, List.rotate_rotate]
  have hrhs : (intShift (matchedFilterSNR q data sigma) k).get ⟨t, h2⟩ =
      Cx.ofQ sigma⁻¹ * innerC (data.rotate (m + t)) q := by
    rw [List.get_of_eq hshift_m ⟨t, h2⟩, List.get_rotate]
    unfold matchedFilterSNR
    rw [List.get_ofFn]
    simp only [Fin.coe_cast, Fin.cast_mk, Fin.val_mk, List.length_ofFn]
    rw [← hN, List.rotate_mod, Nat.add_comm t m]
  rw [hlhs, hrhs]

/-- Entry t of a cyclically shifted list in terms of the original list. -/
theorem getD_intShift {l : List Cx} (k : ℤ) {t : ℕ} (ht : t < l.length) :
    (intShift l k).getD t 0 =
      l.getD ((t + Int.toNat ((-k) % (l.length : ℤ))) % l.length) 0 := by
  have h0 : 0 < l.length := by omega
  have hmod : (t + Int.toNat ((-k) % (l.length : ℤ))) % l.length < l.length :=
    Nat.mod_lt _ h0
  rw [List.getD_eq_getElem _ 0 (by simpa using ht), List.getD_eq_getElem _ 0 hmod]
  unfold intShift
  rw [List.getElem_rotate]

/-- The index map of a cyclic shift: position j of the shifted list draws
from position p of the original exactly when j is the shifted image of p. -/
theorem intShift_source_index {N p j : ℕ} (hN : 0 < N) (k : ℤ)
    (hp : p < N) (hj : j < N)
    (hk0 : 0 ≤ (p : ℤ) + k) (hkN : (p : ℤ) + k < (N : ℤ)) :
    (j + Int.toNat ((-k) % (N : ℤ))) % N = p ↔ j = ((p : ℤ) + k).toNat := by
  have hNZ : ((N : ℤ)) ≠ 0 := by exact_mod_cast Nat.pos_iff_ne_zero.mp hN
  set m : ℕ := Int.toNat ((-k) % (N : ℤ)) with hm
  have hmZ : (m : ℤ) = (-k) % (N : ℤ) := Int.toNat_of_nonneg (Int.emod_nonneg _ hNZ)
  have ht0 : ((((p : ℤ) + k).toNat : ℤ)) = (p : ℤ) + k := Int.toNat_of_nonneg hk0
  have hchain : ∀ a : ℤ, (a + ((-k) % (N : ℤ))) % (N : ℤ) = (a - k) % (N : ℤ) := by
    intro a
    calc (a + ((-k) % (N : ℤ))) % (N : ℤ)
        = (a % (N : ℤ) + ((-k) % (N : ℤ)) % (N : ℤ)) % (N : ℤ) := Int.add_emod _ _ _
      _ = (a % (N : ℤ) + (-k) % (N : ℤ)) % (N : ℤ) := by
          rw [Int.emod_emod_of_dvd _ dvd_rfl]
      _ = (a + -k) % (N : ℤ) := (Int.add_emod _ _ _).symm
      _ = (a - k) % (N : ℤ) := by ring_nf
  constructor
  · intro hmod
    have hz : ((j : ℤ) + (m : ℤ)) % (N : ℤ) = (p : ℤ) := by
      have hcast : (((j + m) % N : ℕ) : ℤ) = ((j : ℤ) + (m : ℤ)) % (N : ℤ) := by
        rw [Int.natCast_mod, Nat.cast_add]
      rw [← hcast, hmod]
    rw [hmZ, hchain] at hz
    have hdvd : (N : ℤ) ∣ ((p : ℤ) - ((j : ℤ) - k)) := by
      apply Int.ModEq.dvd
      show ((j : ℤ) - k) % (N : ℤ) = (p : ℤ) % (N : ℤ)
      rw [hz, Int.emod_eq_of_lt (by exact_mod_cast Nat.zero_le p) (by exact_mod_cast hp)]
    have habs : |(p : ℤ) - ((j : ℤ) - k)| < (N : ℤ) := by
      rw [abs_lt]
      omega
    have hzero := Int.eq_zero_of_abs_lt_dvd hdvd habs
    omega
  · intro hj'
    subst hj'
    have hz : (((((p : ℤ) + k).toNat + m) % N : ℕ) : ℤ) = (p : ℤ) := by
      rw [Int.natCast_mod, Nat.cast_add, ht0, hmZ, hchain]
      have harith : (p : ℤ) + k - k = (p : ℤ) := by ring
      rw [harith, Int.emod_eq_of_lt (by exact_mod_cast Nat.zero_le p) (by exact_mod_cast hp)]
    exact_mod_cast hz

/-- Under a strict peak and no wraparound of the shifted peak, the argmax of
a cyclically shifted series is the shifted argmax, and the sample there is
the original peak sample. -/
theorem argmaxNormSq_intShift_strict {s : List Cx} {p : ℕ} (k : ℤ)
    (hp : p < s.length)
    (hstrict : ∀ j, j < s.length → j ≠ p →
      Cx.normSq (s.getD j 0) < Cx.normSq (s.getD p 0))
    (hk0 : 0 ≤ (p : ℤ) + k) (hkN : (p : ℤ) + k < (s.length : ℤ)) :
    argmaxNormSq (intShift s k) = ((p : ℤ) + k).toNat ∧
    (intShift s k).getD (((p : ℤ) + k).toNat) 0 = s.getD p 0 := by
  have hN : 0 < s.length := by omega
  have ht0N : ((p : ℤ) + k).toNat < s.length := by omega
  have hval : (intShift s k).getD (((p : ℤ) + k).toNat) 0 = s.getD p 0 := by
    rw [getD_intShift k ht0N]
    congr 1
    exact (intShift_source_index hN k hp ht0N hk0 hkN).mpr rfl
  refine ⟨?_, hval⟩
  apply argmaxNormSq_eq_of_strict (by simpa using ht0N)
  intro j hj hjne
  have hjN : j < s.length := by simpa using hj
  rw [getD_intShift k hjN, hval]
  apply hstrict
  · exact Nat.mod_lt _ hN
  · intro heq
    exact hjne ((intShift_source_index hN k hp hjN hk0 hkN).mp heq)

/-- Claim C5: for every integer k such that the shifted peak stays inside the
series (no wraparound out of the valid span) and the peak is a strict
maximum, cyclically shifting the input data by k samples moves the
matched-filter SNR peak time by exactly k * dt and leaves the peak magnitude
unchanged (exactly, in exact arithmetic). -/
theorem C5_time_shift_invariance (q : List Cx) (d : TimeSeries) (sigma : ℚ) (k : ℤ)
    (hstrict : ∀ j, j < d.samples.length →
      j ≠ argmaxNormSq (matchedFilterSNR q d.samples sigma) →
      Cx.normSq ((matchedFilterSNR q d.samples sigma).getD j 0) <
        Cx.normSq ((matchedFilterSNR q d.samples sigma).getD
          (argmaxNormSq (matchedFilterSNR q d.samples sigma)) 0))
    (hp : argmaxNormSq (matchedFilterSNR q d.samples sigma) < d.samples.length)
    (hk0 : 0 ≤ (argmaxNormSq (matchedFilterSNR q d.samples sigma) : ℤ) + k)
    (hkN : (argmaxNormSq (matchedFilterSNR q d.samples sigma) : ℤ) + k <
      (d.samples.length : ℤ)) :
    (extractPeak (TimeSeries.mk (matchedFilterSNR q (shiftData d k).samples sigma)
        d.dt d.t0)).1 =
      (extractPeak (TimeSeries.mk (matchedFilterSNR q d.samples sigma) d.dt d.t0)).1 +
        (k : ℚ) * d.dt ∧
    Cx.normSq (extractPeak (TimeSeries.mk (matchedFilterSNR q (shiftData d k).samples sigma)
        d.dt d.t0)).2 =
      Cx.normSq (extractPeak (TimeSeries.mk (matchedFilterSNR q d.samples sigma)
        d.dt d.t0)).2 := by
  set s := matchedFilterSNR q d.samples sigma with hs
  set p := argmaxNormSq s with hpdef
  have hslen : s.length = d.samples.length := by
    rw [hs]; simp
  have hps : p < s.length := by omega
  have hstrict' : ∀ j, j < s.length → j ≠ p →
      Cx.normSq (s.getD j 0) < Cx.normSq (s.getD p 0) := by
    intro j hj hjne
    exact hstrict j (by omega) hjne
  have hk0' : 0 ≤ (p : ℤ) + k := hk0
  have hkN' : (p : ℤ) + k < (s.length : ℤ) := by
    rw [hslen]; exact hkN
  have hshifted : matchedFilterSNR q (shiftData d k).samples sigma = intShift s k := by
    show matchedFilterSNR q (intShift d.samples k) sigma = intShift s k
    rw [matchedFilterSNR_intShift, hs]
  obtain ⟨hargmax, hval⟩ := argmaxNormSq_intShift_strict k hps hstrict' hk0' hkN'
  have hcast : ((((p : ℤ) + k).toNat : ℚ)) = (p : ℚ) + (k : ℚ) := by
    have h1 : ((((p : ℤ) + k).toNat : ℤ)) = (p : ℤ) + k := Int.toNat_of_nonneg hk0'
    exact_mod_cast congrArg (fun z : ℤ => (z : ℚ)) h1
  constructor
  · show d.t0 + (argmaxNormSq (matchedFilterSNR q (shiftData d k).samples sigma) : ℚ) *
        d.dt = d.t0 + (p : ℚ) * d.dt + (k : ℚ) * d.dt
    rw [hshifted, hargmax, hcast]
    ring
  · show Cx.normSq ((matchedFilterSNR q (shiftData d k).samples sigma).getD
        (argmaxNormSq (matchedFilterSNR q (shiftData d k).samples sigma)) 0) =
      Cx.normSq (s.getD p 0)
    rw [hshifted, hargmax, hval]

/-- Concrete SNR series used by the C5 witness. -/
theorem snrEvalOneZero :
    matchedFilterSNR [Cx.mk 1 0, Cx.mk 0 0] [Cx.mk 1 0, Cx.mk 0 0] 1 =
      [Cx.mk 1 0, Cx.mk 0 0] := by
  norm_num [matchedFilterSNR, List.ofFn_succ, List.rotate, Cx.ofQ]
  constructor
  · ext <;> simp [Cx.conj] <;> norm_num
  · ext <;> simp [Cx.conj] <;> norm_num

/-- Concrete argmax used by the C5 witness. -/
theorem argmaxEvalOneZero :
    argmaxNormSq (matchedFilterSNR [Cx.mk 1 0, Cx.mk 0 0] [Cx.mk 1 0, Cx.mk 0 0] 1) = 0 := by
  rw [snrEvalOneZero]
  norm_num [argmaxNormSq, maxNormSq, Cx.normSq]

/-- Witness for C5 at a two-sample data series with a strict peak at index 0
and shift k = 1: the peak moves one sample later with the same magnitude. -/
theorem C5_time_shift_invariance_witness :
    ((∀ j, j < 2 →
      j ≠ argmaxNormSq (matchedFilterSNR [Cx.mk 1 0, Cx.mk 0 0] [Cx.mk 1 0, Cx.mk 0 0] 1) →
      Cx.normSq ((matchedFilterSNR [Cx.mk 1 0, Cx.mk 0 0] [Cx.mk 1 0, Cx.mk 0 0] 1).getD j 0) <
        Cx.normSq ((matchedFilterSNR [Cx.mk 1 0, Cx.mk 0 0] [Cx.mk 1 0, Cx.mk 0 0] 1).getD
          (argmaxNormSq (matchedFilterSNR [Cx.mk 1 0, Cx.mk 0 0]
            [Cx.mk 1 0, Cx.mk 0 0] 1)) 0)) ∧
      argmaxNormSq (matchedFilterSNR [Cx.mk 1 0, Cx.mk 0 0] [Cx.mk 1 0, Cx.mk 0 0] 1) < 2 ∧
      (0 : ℤ) ≤ (argmaxNormSq (matchedFilterSNR [Cx.mk 1 0, Cx.mk 0 0]
        [Cx.mk 1 0, Cx.mk 0 0] 1) : ℤ) + 1 ∧
      (argmaxNormSq (matchedFilterSNR [Cx.mk 1 0, Cx.mk 0 0]
        [Cx.mk 1 0, Cx.mk 0 0] 1) : ℤ) + 1 < (2 : ℤ)) ∧
    ((extractPeak (TimeSeries.mk (matchedFilterSNR [Cx.mk 1 0, Cx.mk 0 0]
        (shiftData (TimeSeries.mk [Cx.mk 1 0, Cx.mk 0 0] 1 0) 1).samples 1) 1 0)).1 =
      (extractPeak (TimeSeries.mk (matchedFilterSNR [Cx.mk 1 0, Cx.mk 0 0]
        [Cx.mk 1 0, Cx.mk 0 0] 1) 1 0)).1 + ((1 : ℤ) : ℚ) * 1 ∧
    Cx.normSq (extractPeak (TimeSeries.mk (matchedFilterSNR [Cx.mk 1 0, Cx.mk 0 0]
        (shiftData (TimeSeries.mk [Cx.mk 1 0, Cx.mk 0 0] 1 0) 1).samples 1) 1 0)).2 =
      Cx.normSq (extractPeak (TimeSeries.mk (matchedFilterSNR [Cx.mk 1 0, Cx.mk 0 0]
        [Cx.mk 1 0, Cx.mk 0 0] 1) 1 0)).2) := by
  have ha := argmaxEvalOneZero
  have hstrict : ∀ j, j < 2 →
      j ≠ argmaxNormSq (matchedFilterSNR [Cx.mk 1 0, Cx.mk 0 0] [Cx.mk 1 0, Cx.mk 0 0] 1) →
      Cx.normSq ((matchedFilterSNR [Cx.mk 1 0, Cx.mk 0 0] [Cx.mk 1 0, Cx.mk 0 0] 1).getD j 0) <
        Cx.normSq ((matchedFilterSNR [Cx.mk 1 0, Cx.mk 0 0] [Cx.mk 1 0, Cx.mk 0 0] 1).getD
          (argmaxNormSq (matchedFilterSNR [Cx.mk 1 0, Cx.mk 0 0]
            [Cx.mk 1 0, Cx.mk 0 0] 1)) 0) := by
    intro j hj hne
    rw [ha] at hne
    rw [ha, snrEvalOneZero]
    have hj1 : j = 1 := by omega
    subst hj1
    norm_num [Cx.normSq]
  have hp2 : argmaxNormSq (matchedFilterSNR [Cx.mk 1 0, Cx.mk 0 0]
      [Cx.mk 1 0, Cx.mk 0 0] 1) < 2 := by
    rw [ha]; norm_num
  have hk0 : (0 : ℤ) ≤ (argmaxNormSq (matchedFilterSNR [Cx.mk 1 0, Cx.mk 0 0]
      [Cx.mk 1 0, Cx.mk 0 0] 1) : ℤ) + 1 := by
    rw [ha]; norm_num
  have hkN : (argmaxNormSq (matchedFilterSNR [Cx.mk 1 0, Cx.mk 0 0]
      [Cx.mk 1 0, Cx.mk 0 0] 1) : ℤ) + 1 < (2 : ℤ) := by
    rw [ha]; norm_num
  exact ⟨⟨hstrict, hp2, hk0, hkN⟩,
    C5_time_shift_invariance [Cx.mk 1 0, Cx.mk 0 0]
      (TimeSeries.mk [Cx.mk 1 0, Cx.mk 0 0] 1 0) 1 1 hstrict hp2 hk0 hkN⟩

set_option maxHeartbeats 2000000 in
/-- Claim C4: the Align operation equals the template cyclically time-shifted
so that its reference feature (at index 0, merger stamped at the first bin)
lands at the peak time, scaled first by 1/sigma and then by the complex peak
value; the frequency-domain multiplication by the peak value in the code is
exactly a uniform complex scaling of the samples.  Stated for a peak time a
whole number n of samples after the data start, with the sample at index n
carrying the scaled reference feature and time stamp equal to the peak time. -/
theorem C4_align_shift_scale (w : Cx) (template : TimeSeries)
    (time dataStart sigma : ℚ) (snrp : Cx) (n : ℕ)
    (hroot : IsPrimRoot w template.samples.length)
    (hdt : 0 < template.dt)
    (hn : (time - dataStart) / template.dt = (n : ℚ))
    (hnN : n < template.samples.length) :
    align w template time dataStart sigma snrp =
      TimeSeries.mk
        ((intShift template.samples (n : ℤ)).map (fun z => Cx.ofQ sigma⁻¹ * z * snrp))
        template.dt dataStart ∧
    (align w template time dataStart sigma snrp).samples.getD n 0 =
      Cx.ofQ sigma⁻¹ * template.samples.getD 0 0 * snrp ∧
    dataStart + (n : ℚ) * template.dt = time := by
  set N := template.samples.length with hN
  have hN0 : 0 < N := by omega
  have hshift_samples : (template.cyclicTimeShift (time - dataStart)).samples =
      intShift template.samples (n : ℤ) := by
    unfold TimeSeries.cyclicTimeShift
    rw [hn, Int.floor_natCast]
  set scaled := (template.cyclicTimeShift (time - dataStart)).scaleSamples
    (Cx.ofQ sigma⁻¹) with hscaled
  have hscaled_samples : scaled.samples =
      (intShift template.samples (n : ℤ)).map (fun z => Cx.ofQ sigma⁻¹ * z) := by
    show ((template.cyclicTimeShift (time - dataStart)).samples).map _ = _
    rw [hshift_samples]
  have hscaled_len : scaled.samples.length = N := by
    rw [hscaled_samples]
    simp [hN]
  have hback_samples : (align w template time dataStart sigma snrp).samples =
      scaled.samples.map (fun z => z * snrp) := by
    show invDftList w ((dftList w scaled.samples).map (fun z => z * snrp)) = _
    rw [invDftList_map_mul]
    congr 1
    apply invDftList_dftList
    rw [hscaled_len]
    exact hroot
  have hsamples_final : (align w template time dataStart sigma snrp).samples =
      (intShift template.samples (n : ℤ)).map (fun z => Cx.ofQ sigma⁻¹ * z * snrp) := by
    rw [hback_samples, hscaled_samples, List.map_map]
    rfl
  have hdt_final : (align w template time dataStart sigma snrp).dt = template.dt := by
    show (((scaled.to_frequencyseries w).scaleBins snrp).to_timeseries w).dt = template.dt
    unfold FrequencySeries.to_timeseries FrequencySeries.scaleBins
      TimeSeries.to_frequencyseries
    simp only [List.length_map, length_dftList]
    rw [hscaled_len]
    have hscaled_dt : scaled.dt = template.dt := rfl
    rw [hscaled_dt]
    have hNQ : ((N : ℚ)) ≠ 0 := Nat.cast_ne_zero.mpr (by omega)
    have hdtQ : template.dt ≠ 0 := ne_of_gt hdt
    field_simp
  have ht0_final : (align w template time dataStart sigma snrp).t0 = dataStart := rfl
  have hstruct : align w template time dataStart sigma snrp =
      TimeSeries.mk
        ((intShift template.samples (n : ℤ)).map (fun z => Cx.ofQ sigma⁻¹ * z * snrp))
        template.dt dataStart := by
    apply TimeSeries.ext_fields
    · exact hsamples_final
    · exact hdt_final
    · exact ht0_final
  have hkey : (intShift template.samples (n : ℤ)).getD n 0 =
      template.samples.getD 0 0 := by
    rw [getD_intShift (n : ℤ) (show n < template.samples.length by omega)]
    congr 1
    exact (intShift_source_index (show 0 < template.samples.length by omega) (n : ℤ)
      (show 0 < template.samples.length by omega)
      (show n < template.samples.length by omega)
      (by omega) (by omega)).mpr (by omega)
  have hvalue : (align w template time dataStart sigma snrp).samples.getD n 0 =
      Cx.ofQ sigma⁻¹ * template.samples.getD 0 0 * snrp := by
    have h1 : n < ((intShift template.samples (n : ℤ)).map
        (fun z => Cx.ofQ sigma⁻¹ * z * snrp)).length := by
      simp [hN]
      omega
    have h2 : n < (intShift template.samples (n : ℤ)).length := by
      simp [hN]
      omega
    rw [hsamples_final, List.getD_eq_getElem _ 0 h1, List.getElem_map,
      ← List.getD_eq_getElem _ 0 h2, hkey]
  have htime : dataStart + (n : ℚ) * template.dt = time := by
    rw [div_eq_iff (ne_of_gt hdt)] at hn
    linarith
  exact ⟨hstruct, hvalue, htime⟩

/-- Witness for C4 on a two-sample template, root of unity -1, peak one
sample after the data start, sigma 2 and a purely imaginary peak value. -/
theorem C4_align_shift_scale_witness :
    (IsPrimRoot (Cx.mk (-1) 0) (TimeSeries.mk [Cx.mk 1 0, Cx.mk 2 0] 1 5).samples.length ∧
      (0 : ℚ) < (TimeSeries.mk [Cx.mk 1 0, Cx.mk 2 0] 1 5).dt ∧
      ((1 : ℚ) - 0) / (TimeSeries.mk [Cx.mk 1 0, Cx.mk 2 0] 1 5).dt = ((1 : ℕ) : ℚ) ∧
      1 < (TimeSeries.mk [Cx.mk 1 0, Cx.mk 2 0] 1 5).samples.length) ∧
    (align (Cx.mk (-1) 0) (TimeSeries.mk [Cx.mk 1 0, Cx.mk 2 0] 1 5) 1 0 2 (Cx.mk 0 1) =
      TimeSeries.mk
        ((intShift (TimeSeries.mk [Cx.mk 1 0, Cx.mk 2 0] 1 5).samples ((1 : ℕ) : ℤ)).map
          (fun z => Cx.ofQ (2 : ℚ)⁻¹ * z * Cx.mk 0 1))
        (TimeSeries.mk [Cx.mk 1 0, Cx.mk 2 0] 1 5).dt 0 ∧
    (align (Cx.mk (-1) 0) (TimeSeries.mk [Cx.mk 1 0, Cx.mk 2 0] 1 5) 1 0 2
        (Cx.mk 0 1)).samples.getD 1 0 =
      Cx.ofQ (2 : ℚ)⁻¹ * (TimeSeries.mk [Cx.mk 1 0, Cx.mk 2 0] 1 5).samples.getD 0 0 *
        Cx.mk 0 1 ∧
    (0 : ℚ) + ((1 : ℕ) : ℚ) * (TimeSeries.mk [Cx.mk 1 0, Cx.mk 2 0] 1 5).dt = 1) := by
  have hroot : IsPrimRoot (Cx.mk (-1) 0)
      (TimeSeries.mk [Cx.mk 1 0, Cx.mk 2 0] 1 5).samples.length := by
    refine ⟨?_, ?_, ?_⟩
    · show Cx.mk (-1) 0 ^ 2 = 1
      rw [sq]
      ext <;> norm_num
    · show Cx.conj (Cx.mk (-1) 0) * Cx.mk (-1) 0 = 1
      ext <;> norm_num [Cx.conj]
    · intro m hm hm'
      simp only [List.length_cons, List.length_nil] at hm
      have hm1 : m = 1 := by omega
      subst hm1
      intro hcon
      have := congrArg Cx.re hcon
      norm_num at this
  exact ⟨⟨hroot, by norm_num, by norm_num, by simp⟩,
    C4_align_shift_scale (Cx.mk (-1) 0) (TimeSeries.mk [Cx.mk 1 0, Cx.mk 2 0] 1 5)
      1 0 2 (Cx.mk 0 1) 1 hroot (by norm_num) (by norm_num) (by simp)⟩

/-! ### Non-negativity of estimated and interpolated PSDs -/

theorem getD_nonneg {p : List ℚ} (hp : ∀ v ∈ p, 0 ≤ v) (i : ℕ) : 0 ≤ p.getD i 0 := by
  by_cases hi : i < p.length
  · rw [List.getD_eq_getElem _ 0 hi]
    exact hp _ (List.getElem_mem hi)
  · rw [List.getD_eq_default _ 0 (by omega)]

theorem periodogram_nonneg (w : Cx) (window seg : List ℚ) :
    ∀ v ∈ periodogram w window seg, 0 ≤ v := by
  intro v hv
  rcases List.mem_map.mp hv with ⟨z, _, rfl⟩
  exact Cx.normSq_nonneg z

theorem windowEnergy_nonneg (window : List ℚ) : 0 ≤ windowEnergy window := by
  unfold windowEnergy
  apply List.sum_nonneg
  intro v hv
  rcases List.mem_map.mp hv with ⟨a, _, rfl⟩
  exact mul_self_nonneg a

/-- Claim C7: every frequency-bin value of a PSD produced by the Welch
estimator is non-negative (given a non-negative dt), and every bin of a PSD
produced by linear interpolation onto a new frequency grid is non-negative
(given positive source spacing, non-negative target spacing and a
non-negative source PSD). -/
theorem C7_psd_nonneg :
    (∀ (w : Cx) (x : List ℚ) (segLen stride : ℕ) (window : List ℚ) (dt : ℚ),
      0 ≤ dt → ∀ v ∈ psdWelch w x segLen stride window dt, 0 ≤ v) ∧
    (∀ (p : List ℚ) (df tdf : ℚ) (n : ℕ), 0 < df → 0 ≤ tdf →
      (∀ v ∈ p, 0 ≤ v) → ∀ v ∈ interpolatePSD p df tdf n, 0 ≤ v) := by
  constructor
  · intro w x segLen stride window dt hdt v hv
    unfold psdWelch at hv
    rcases (List.mem_ofFn _ _).mp hv with ⟨j, rfl⟩
    apply mul_nonneg
    · exact div_nonneg hdt (windowEnergy_nonneg window)
    · apply div_nonneg _ (Nat.cast_nonneg _)
      apply List.sum_nonneg
      intro u hu
      rcases List.mem_map.mp hu with ⟨pp, hpp, rfl⟩
      rcases List.mem_map.mp hpp with ⟨i, _, rfl⟩
      exact getD_nonneg (periodogram_nonneg w window _) _
  · intro p df tdf n hdf htdf hp v hv
    unfold interpolatePSD at hv
    rcases (List.mem_ofFn _ _).mp hv with ⟨j, rfl⟩
    simp only
    set pos : ℚ := (j : ℚ) * tdf / df with hpos
    have hpos0 : 0 ≤ pos := by
      apply div_nonneg _ (le_of_lt hdf)
      exact mul_nonneg (Nat.cast_nonneg _) htdf
    set i : ℕ := (Int.floor pos).toNat with hi
    have hfloor0 : 0 ≤ Int.floor pos := Int.floor_nonneg.mpr hpos0
    have hiQ : ((i : ℚ)) = ((Int.floor pos : ℤ) : ℚ) := by
      rw [hi]
      exact_mod_cast congrArg (fun z : ℤ => (z : ℚ)) (Int.toNat_of_nonneg hfloor0)
    have hfrac0 : 0 ≤ pos - (i : ℚ) := by
      rw [hiQ]
      have := Int.floor_le pos
      linarith
    have hfrac1 : pos - (i : ℚ) ≤ 1 := by
      rw [hiQ]
      have := Int.lt_floor_add_one pos
      linarith
    apply add_nonneg
    · exact mul_nonneg (by linarith) (getD_nonneg hp i)
    · exact mul_nonneg hfrac0 (getD_nonneg hp (i + 1))

/-- Witness for C7: a Welch estimate of a four-sample series with two
two-sample segments, and an interpolation of a two-bin PSD onto three bins
at half the spacing. -/
theorem C7_psd_nonneg_witness :
    ((0 : ℚ) ≤ 1 →
      ∀ v ∈ psdWelch (Cx.mk (-1) 0) [1, 2, 3, 4] 2 2 [1, 1] 1, 0 ≤ v) ∧
    ((0 : ℚ) < 1 → (0 : ℚ) ≤ 1/2 → (∀ v ∈ ([1, 2] : List ℚ), 0 ≤ v) →
      ∀ v ∈ interpolatePSD [1, 2] 1 (1/2) 3, 0 ≤ v) :=
  ⟨fun hdt => C7_psd_nonneg.1 (Cx.mk (-1) 0) [1, 2, 3, 4] 2 2 [1, 1] 1 hdt,
    fun hdf htdf hp => C7_psd_nonneg.2 [1, 2] 1 (1/2) 3 hdf htdf hp⟩
